import Mathlib

/-!
Verification of the easydict-cloud media/sync core.

This file shallowly embeds the parts of the repository that the claims
concern:

* the ZIP archive path-resolution index (`get_zip_index` in
  `docker/api/main.py`),
* the per-dictionary zstd codec cache (`get_zstd_decompressor`,
  `decompress_json_data` in `docker/api/main.py`; `compress_entry` in
  `docker/user/main.py`),
* the version ledger and delta resolver (`next_version`,
  `_compute_required_files` in `docker/user/main.py`),
* the auxiliary-file endpoint (`get_auxiliary_file` in
  `docker/api/main.py`) and the zip-to-media.db migration
  (`migrate_zip_to_media_db`).

Python strings that undergo path manipulation are modelled as `List Char`;
byte blobs as `List Nat`.  Python `dict`s are modelled as association
lists updated with `upsert` (in-place overwrite of an existing key, append
otherwise), so resolution of contested keys is decided by the same
last-assignment-wins discipline as a Python `dict`.
-/

namespace EasyDict


/-! ### Association-list model of Python dicts -/

variable {α β : Type}

/-- Lookup in an association list: the value bound to the first matching
key (keys are kept unique by `upsert`, so there is at most one). -/
def alookup [DecidableEq α] : List (α × β) → α → Option β
  | [], _ => none
  | (k, v) :: rest, key => if k = key then some v else alookup rest key

/-- `d[k] = v` on a Python dict: overwrite the value if the key is
present, append the binding otherwise. -/
def upsert [DecidableEq α] : List (α × β) → α → β → List (α × β)
  | [], k, v => [(k, v)]
  | (k', v') :: rest, k, v =>
    if k' = k then (k', v) :: rest else (k', v') :: upsert rest k v

/-- `b` if it is `some`, otherwise `a`: a later optional write overrides
an earlier lookup result. -/
def overrideWith (a b : Option β) : Option β :=
  match b with
  | some v => some v
  | none => a

/-! ### Path strings

Python strings that are split and joined on `'/'` are modelled as
`List Char`; `splitSeg` is `str.split('/')` and `joinSegs` is
`'/'.join(...)`. -/

/-- A path string, as a list of characters. -/
abbrev PathStr := List Char

/-- `str.split('/')`: always returns at least one (possibly empty)
segment; adjacent separators give empty segments. -/
def splitSeg : PathStr → List PathStr
  | [] => [[]]
  | c :: rest =>
    match splitSeg rest with
    | [] => [[]]
    | s :: ss => if c = '/' then [] :: s :: ss else (c :: s) :: ss

/-- `'/'.join(parts)`. -/
def joinSegs (ps : List PathStr) : PathStr :=
  List.intercalate ['/'] ps

/-! ### ZIP archive path-resolution index

Model of `get_zip_index` (`docker/api/main.py`, index construction loop):
for every non-directory entry (name not ending in `'/'`) the loop
assigns, into one Python dict, the full internal path, the basename
(if non-empty), the path with the first segment stripped (if the path
has at least two segments) and the path with the first two segments
stripped (if at least three segments), each mapping to the full internal
path.  Dict assignment overwrites, so a contested key ends up bound to
the assignment made latest in enumeration order. -/

/-- The derived lookup keys registered for one archive entry, in the
order the source assigns them. -/
def derivedKeys (name : PathStr) : List PathStr :=
  let parts := splitSeg name
  let filename := parts.getLastD []
  [name]
    ++ (if filename = [] then [] else [filename])
    ++ (if 1 < parts.length then
          [joinSegs (parts.drop 1)]
            ++ (if 2 < parts.length then [joinSegs (parts.drop 2)] else [])
        else [])

/-- `name.endswith('/')`: the ZIP directory-entry convention. -/
def isDirEntry (name : PathStr) : Bool := name.getLast? == some '/'

/-- Register one non-directory entry's derived keys into the index. -/
def registerEntry (idx : List (PathStr × PathStr)) (name : PathStr) :
    List (PathStr × PathStr) :=
  (derivedKeys name).foldl (fun i k => upsert i k name) idx

/-- The index built by `get_zip_index` from the archive's name list
(`zf.namelist()`), skipping directory entries. -/
def get_zip_index (namelist : List PathStr) : List (PathStr × PathStr) :=
  namelist.foldl
    (fun idx name => if isDirEntry name then idx else registerEntry idx name) []

/-- Does this (non-directory) entry produce the derived key `k`? -/
def producesKey (name k : PathStr) : Bool :=
  !isDirEntry name && decide (k ∈ derivedKeys name)

/-- The latest entry in enumeration order that produces key `k`. -/
def lastProducer (namelist : List PathStr) (k : PathStr) : Option PathStr :=
  (namelist.filter (fun n => producesKey n k)).getLast?

/-- The earliest entry in enumeration order that produces key `k`
(the spec's stated collision policy). -/
def firstProducer (namelist : List PathStr) (k : PathStr) : Option PathStr :=
  (namelist.filter (fun n => producesKey n k)).head?

/-! ### Auxiliary-file endpoint

Model of `get_auxiliary_file` (`docker/api/main.py`): the request
filename is rejected with a 400 client error when it contains the
substring `..` or starts with `/`; only then is the path under
`AUXILIARY_PATH` built and, when it names an existing regular file,
served.  The filesystem is abstracted as a predicate on resolved
segment paths; `AUXILIARY_PATH` is a parameter (it comes from the
environment). -/

/-- Outcome of the auxiliary-file endpoint.  `rejected` carries no path:
the 400 answer happens before any filesystem path is constructed. -/
inductive AuxiResult where
  | rejected
  | notFound (path : List PathStr)
  | served (path : List PathStr)
deriving DecidableEq

/-- POSIX-style resolution of a segment sequence against an
already-resolved base: `..` pops one segment, `.` and empty segments
vanish, anything else is appended. -/
def resolveSegs (acc : List PathStr) : List PathStr → List PathStr
  | [] => acc
  | seg :: rest =>
    if seg = ['.', '.'] then resolveSegs acc.dropLast rest
    else if seg = [] ∨ seg = ['.'] then resolveSegs acc rest
    else resolveSegs (acc ++ [seg]) rest

/-- The `/auxi/{filename}` handler: reject on `'..' in filename or
filename.startswith('/')`, otherwise serve `AUXILIARY_PATH / filename`
when it exists and is a regular file. -/
def get_auxiliary_file (auxRoot : List PathStr) (fs : List PathStr → Bool)
    (filename : PathStr) : AuxiResult :=
  if ['.', '.'] <:+: filename ∨ filename.head? = some '/' then
    AuxiResult.rejected
  else
    let p := auxRoot ++ splitSeg filename
    if fs (resolveSegs [] p) then AuxiResult.served p else AuxiResult.notFound p

/-! ### Zip-to-media.db migration

Model of `migrate_zip_to_media_db` (`docker/api/main.py` and
`docker/api/migrate_to_media_db.py`): for each non-directory zip entry,
`simple_name = file_name.split('/')[-1]` is the stored key and the row
is written with INSERT OR REPLACE into a table with `name` as primary
key.  The zip file list is a list of `(filename, is_dir)` pairs; entry
contents are abstracted as a function of the internal path. -/

/-- The `audios` (or `images`) table produced by migrating one zip:
every non-directory entry stored under its basename, later duplicates
replacing earlier ones. -/
def migrateMediaDb (filelist : List (PathStr × Bool))
    (content : PathStr → List Nat) : List (PathStr × List Nat) :=
  (filelist.filter (fun e => !e.2)).foldl
    (fun db e => upsert db ((splitSeg e.1).getLastD []) (content e.1)) []

/-- The media.db branch of `get_audio_file` / `get_image_file`:
`SELECT blob FROM audios WHERE name = ?` — an exact match on the stored
name. -/
def get_audio_from_db (db : List (PathStr × List Nat)) (file_path : PathStr) :
    Option (List Nat) :=
  alookup db file_path

/-! ### Compression codec

Byte blobs are `List Nat`.  The zstandard library is modelled by its
contract: a compressed frame carries a magic marker and the training
dictionary it was seeded with (the real format embeds a dictionary ID);
decompression succeeds exactly on frames produced with the context's
own dictionary, and fails on anything else — in particular on plain
JSON text and on garbage.  `ZstdCompressor(level=7)` without
`dict_data` is the empty-dictionary context (the source treats an empty
or absent training blob identically, via Python truthiness).

JSON values are modelled as flat objects — lists of key/value byte
strings, which is the shape of the dictionary-entry payloads — with a
concrete length-prefixed serialization whose first byte is the `{`
marker; parsing inverts it and fails on anything else. -/

/-- A byte blob. -/
abbrev Bytes := List Nat

/-- Length-prefixed byte-string encoding. -/
def encStr (s : Bytes) : Bytes := s.length :: s

/-- Decode one length-prefixed byte string, returning it and the rest. -/
def decStr : Bytes → Option (Bytes × Bytes)
  | [] => none
  | n :: rest =>
    if n ≤ rest.length then some (rest.take n, rest.drop n) else none

/-- First byte of a zstd frame (the real magic starts with 0x28). -/
def zstdMagic : Nat := 40

/-- A zstd decompression context; `dict = []` is the plain context. -/
structure ZstdDecompressor where
  dict : Bytes
deriving DecidableEq

/-- Model of zstd compression seeded with training blob `zdict`
(`[]` for the plain compressor). -/
def zstdCompress (zdict : Bytes) (data : Bytes) : Bytes :=
  zstdMagic :: (encStr zdict ++ data)

/-- Model of `dctx.decompress`: succeeds exactly on frames produced
with this context's own training blob; `none` models the exception
raised on a non-frame or a dictionary mismatch. -/
def zstdDecompress (ctx : ZstdDecompressor) (blob : Bytes) : Option Bytes :=
  match blob with
  | [] => none
  | m :: rest =>
    if m = zstdMagic then
      match decStr rest with
      | some (d, payload) => if d = ctx.dict then some payload else none
      | none => none
    else none

/-- A JSON object value: key/value pairs of byte strings.  The empty
structured value `{}` is `[]`. -/
abbrev JsonObj := List (Bytes × Bytes)

/-- The empty structured value `{}`. -/
def emptyJson : JsonObj := []

/-- First byte of serialized JSON-object text (`{` is byte 123). -/
def jsonMagic : Nat := 123

/-- Serialization of the pair list. -/
def encPairs (v : JsonObj) : Bytes :=
  v.foldr (fun kv acc => encStr kv.1 ++ encStr kv.2 ++ acc) []

/-- `json.dumps(...).encode()` on an object value. -/
def jsonSerialize (v : JsonObj) : Bytes :=
  jsonMagic :: v.length :: encPairs v

/-- Decode `n` key/value pairs. -/
def decPairs : Nat → Bytes → Option (JsonObj × Bytes)
  | 0, rest => some ([], rest)
  | Nat.succ n, rest =>
    match decStr rest with
    | some (k, r1) =>
      match decStr r1 with
      | some (w, r2) =>
        match decPairs n r2 with
        | some (ps, r3) => some ((k, w) :: ps, r3)
        | none => none
      | none => none
    | none => none

/-- `json.loads` on bytes: succeeds exactly on complete serialized
object values. -/
def jsonParse : Bytes → Option JsonObj
  | m :: n :: rest =>
    if m = jsonMagic then
      match decPairs n rest with
      | some (ps, []) => some ps
      | _ => none
    else none
  | _ => none

/-- Python truthiness of an optional byte string: `None` and `b''` are
falsy. -/
def pyTruthyBytes : Option Bytes → Bool
  | none => false
  | some b => !b.isEmpty

/-- `compress_entry` (`docker/user/main.py`): compress with a
dictionary-seeded compressor when the training blob is truthy, with a
plain one otherwise. -/
def compress_entry (data : Bytes) (zdict_bytes : Option Bytes) : Bytes :=
  if pyTruthyBytes zdict_bytes then
    zstdCompress (zdict_bytes.getD []) data
  else
    zstdCompress [] data

/-- `decompress_json_data` (`docker/api/main.py`): `None` gives `{}`;
otherwise try zstd decompression, swallowing failure and keeping the
raw bytes; then `json.loads`, returning `{}` on parse failure.  It is a
total function — every library failure is modelled as `none` and
handled, so no input raises outward. -/
def decompress_json_data (data : Option Bytes)
    (dctx : Option ZstdDecompressor) : JsonObj :=
  match data with
  | none => emptyJson
  | some raw0 =>
    let raw : Bytes :=
      match dctx with
      | some c =>
        match zstdDecompress c raw0 with
        | some out => out
        | none => raw0
      | none => raw0
    match jsonParse raw with
    | some v => v
    | none => emptyJson

/-- The result of the per-dictionary config lookup
`SELECT value FROM config WHERE key = 'zstd_dict'` on one dictionary's
database, as `get_zstd_decompressor` observes it. -/
structure DictDbConn where
  /-- The query raised (e.g. the table is missing). -/
  configFails : Bool
  /-- The fetched row value, when a row exists. -/
  zstdDictRow : Option Bytes
deriving DecidableEq

/-- `get_zstd_decompressor` (`docker/api/main.py`): cache hit returns
the cached context unchanged; otherwise, when the dictionary's database
is unreachable, return `None` without caching; otherwise build a
dictionary-seeded context when the stored training blob is truthy (and
the query did not raise), a plain one in every other case, cache it
under `dict_id` and return it.  State is passed explicitly: the result
is the returned value together with the updated cache. -/
def get_zstd_decompressor (env : String → Option DictDbConn)
    (cache : List (String × ZstdDecompressor)) (dict_id : String) :
    Option ZstdDecompressor × List (String × ZstdDecompressor) :=
  match alookup cache dict_id with
  | some c => (some c, cache)
  | none =>
    match env dict_id with
    | none => (none, cache)
    | some conn =>
      let seeded : Option ZstdDecompressor :=
        if conn.configFails then none
        else
          match conn.zstdDictRow with
          | some b => if b.isEmpty then none else some ⟨b⟩
          | none => none
      match seeded with
      | some c => (some c, upsert cache dict_id c)
      | none => (some ⟨[]⟩, upsert cache dict_id ⟨[]⟩)

/-! ### Version ledger and delta resolver

Model of the `version_history` table (`docker/user/main.py`) and of
`next_version` and `_compute_required_files`.  The table is a list of
records; the SQL query `WHERE dict_id = ? AND version > ? AND
version <= ? ORDER BY version ASC` is a filter followed by a stable
sort on the version column. -/

/-- One row of `version_history`. -/
structure VersionRecord where
  dict_id : String
  version : Int
  message : String
  change_type : String
  file_name : String
  entry_id : Int
deriving DecidableEq

/-- The ledger query used by `_compute_required_files` and
`_get_history_between`: the window `(fromV, toV]` for one dictionary,
in ascending version order. -/
def queryHistory (ledger : List VersionRecord) (dict_id : String)
    (fromV toV : Int) : List VersionRecord :=
  List.insertionSort (fun a b => a.version ≤ b.version)
    (ledger.filter (fun r =>
      r.dict_id == dict_id && decide (fromV < r.version)
        && decide (r.version ≤ toV)))

/-- `next_version` (`docker/user/main.py`): `SELECT MAX(version) ...`,
`(row[0] or 0) + 1`. -/
def next_version (ledger : List VersionRecord) (dict_id : String) : Int :=
  (((ledger.filter (fun r => r.dict_id == dict_id)).map
      (fun r => r.version)).max?).getD 0 + 1

/-- Lexicographic code-point comparison of character lists: the order
Python's `sorted` uses on strings. -/
def charListLeb : List Char → List Char → Bool
  | [], _ => true
  | _ :: _, [] => false
  | a :: as, b :: bs =>
    if a < b then true
    else if b < a then false
    else charListLeb as bs

/-- Python's `sorted` order on strings: code-point lexicographic. -/
def strLe (a b : String) : Prop := charListLeb a.data b.data = true

instance : DecidableRel strLe := fun a b => by
  unfold strLe
  infer_instance

/-- `files_needed.add(x)` — set insertion, modelled on a duplicate-free
list. -/
def insertSet (l : List String) (x : String) : List String :=
  if x ∈ l then l else l ++ [x]

/-- `entries_needed[x] = None` on an insertion-ordered dict: a repeat
keeps its first-seen position. -/
def insertOrd (l : List Int) (x : Int) : List Int :=
  if x ∈ l then l else l ++ [x]

/-- The per-record step of `_compute_required_files`: a `file` record
adds its file name and, when it is `dictionary.db`, clears the
accumulated entries; an `entry` record inserts its entry id; any other
kind is ignored. -/
def stepRecord (st : List String × List Int) (r : VersionRecord) :
    List String × List Int :=
  if r.change_type == "file" then
    (insertSet st.1 r.file_name,
      if r.file_name == "dictionary.db" then [] else st.2)
  else if r.change_type == "entry" then
    (st.1, insertOrd st.2 r.entry_id)
  else st

/-- The sync manifest: `{"files": ..., "entries": ...}`. -/
structure Manifest where
  files : List String
  entries : List Int
deriving DecidableEq

/-- `_compute_required_files` (`docker/user/main.py`): scan the window's
records in ascending version order, then return the sorted file set and
the insertion-ordered entry ids. -/
def compute_required_files (ledger : List VersionRecord) (dict_id : String)
    (fromV toV : Int) : Manifest :=
  let rows := queryHistory ledger dict_id fromV toV
  let st := rows.foldl stepRecord ([], [])
  { files := List.insertionSort strLe st.1, entries := st.2 }

/-! Spec-side reformulations used to state C1: the file names and entry
ids carried by a record window, the suffix after the last
`dictionary.db` full replacement, and first-seen deduplication. -/

/-- Does this record trigger the clear of accumulated entries? -/
def isClearRec (r : VersionRecord) : Bool :=
  r.change_type == "file" && r.file_name == "dictionary.db"

/-- The file names of the window's `file` records. -/
def fileNamesOf (rows : List VersionRecord) : List String :=
  rows.filterMap (fun r => if r.change_type == "file" then some r.file_name
    else none)

/-- The entry ids of the window's `entry` records. -/
def entryIdsOf (rows : List VersionRecord) : List Int :=
  rows.filterMap (fun r => if r.change_type == "entry" then some r.entry_id
    else none)

/-- The records after the last clearing record (the whole window when
none clears). -/
def sinceLastClear : List VersionRecord → List VersionRecord
  | [] => []
  | r :: rest =>
    if rest.any isClearRec then sinceLastClear rest
    else if isClearRec r then rest
    else r :: rest

/-- Collapse duplicates to one occurrence at the first-seen position. -/
def dedupFirst : List Int → List Int
  | [] => []
  | x :: rest => x :: dedupFirst (rest.filter (fun y => y ≠ x))
termination_by l => l.length
decreasing_by
  simp only [List.length_cons]
  exact Nat.lt_succ_of_le (List.length_filter_le _ _)

/-! Auxiliary decompositions of the manifest fold, used to prove C1. -/

/-- The file component of `stepRecord`. -/
def stepFile (fs : List String) (r : VersionRecord) : List String :=
  if r.change_type == "file" then insertSet fs r.file_name else fs

/-- The entry component of `stepRecord`. -/
def stepEntry (es : List Int) (r : VersionRecord) : List Int :=
  if r.change_type == "file" then
    (if r.file_name == "dictionary.db" then [] else es)
  else if r.change_type == "entry" then insertOrd es r.entry_id
  else es

/-- Insert each id in order, keeping first-seen positions. -/
def insertAll (acc : List Int) (ids : List Int) : List Int :=
  ids.foldl insertOrd acc

/-! ### Theorems -/

@[simp]
theorem alookup_nil [DecidableEq α] (key : α) :
    alookup ([] : List (α × β)) key = none := rfl

theorem alookup_upsert [DecidableEq α] (l : List (α × β)) (k key : α) (v : β) :
    alookup (upsert l k v) key = if key = k then some v else alookup l key := by
  induction l with
  | nil =>
    by_cases h : key = k
    · subst h; simp [upsert, alookup]
    · simp [upsert, alookup, h, Ne.symm h]
  | cons kv rest ih =>
    obtain ⟨k', v'⟩ := kv
    by_cases h1 : k' = k
    · subst h1
      by_cases h2 : k' = key
      · subst h2; simp [upsert, alookup]
      · simp [upsert, alookup, h2, Ne.symm h2]
    · by_cases h2 : k' = key
      · subst h2
        simp [upsert, alookup, h1]
      · simp [upsert, alookup, h1, h2, Ne.symm h2, ih]

theorem mem_upsert_key [DecidableEq α] (l : List (α × β)) (k : α) (v : β)
    (kv : α × β) (h : kv ∈ upsert l k v) : kv.1 = k ∨ kv ∈ l := by
  induction l with
  | nil => simp [upsert] at h; simp [h]
  | cons kv' rest ih =>
    by_cases h1 : kv'.1 = k
    · obtain ⟨a, b⟩ := kv'
      simp at h1
      subst h1
      simp [upsert] at h
      rcases h with h | h
      · left; simp [h]
      · right; simp [h]
    · obtain ⟨a, b⟩ := kv'
      simp at h1
      simp [upsert, h1] at h
      rcases h with h | h
      · right; simp [h]
      · rcases ih h with h' | h'
        · left; exact h'
        · right; simp [h']

theorem alookup_eq_none [DecidableEq α] (l : List (α × β)) (key : α)
    (h : ∀ kv ∈ l, kv.1 ≠ key) : alookup l key = none := by
  induction l with
  | nil => rfl
  | cons kv rest ih =>
    obtain ⟨k, v⟩ := kv
    have hk : k ≠ key := h (k, v) (by simp)
    simp [alookup, hk]
    exact ih fun kv' hkv' => h kv' (by simp [hkv'])

@[simp] theorem overrideWith_none (a : Option β) : overrideWith a none = a := rfl

@[simp] theorem overrideWith_some (a : Option β) (v : β) :
    overrideWith a (some v) = some v := rfl

@[simp] theorem overrideWith_none_left (b : Option β) :
    overrideWith none b = b := by cases b <;> rfl

theorem overrideWith_assoc (a b c : Option β) :
    overrideWith (overrideWith a b) c = overrideWith a (overrideWith b c) := by
  cases c <;> cases b <;> rfl

theorem splitSeg_ne_nil (l : PathStr) : splitSeg l ≠ [] := by
  cases l with
  | nil => simp [splitSeg]
  | cons c rest =>
    simp only [splitSeg]
    match h : splitSeg rest with
    | [] => simp
    | s :: ss => by_cases hc : c = '/' <;> simp [hc]

/-- Structure of `splitSeg`: the first segment is a slash-free prefix of
the input, later segments are slash-free infixes of the input. -/
theorem splitSeg_structure (l : PathStr) :
    ∃ s ss, splitSeg l = s :: ss ∧ s <+: l ∧ ('/' ∉ s) ∧
      ∀ t ∈ ss, t <:+: l ∧ '/' ∉ t := by
  induction l with
  | nil => exact ⟨[], [], rfl, List.nil_prefix, by simp, by simp⟩
  | cons c rest ih =>
    obtain ⟨s, ss, hsplit, hpre, hs, hss⟩ := ih
    by_cases hc : c = '/'
    · refine ⟨[], s :: ss, ?_, List.nil_prefix, by simp, ?_⟩
      · simp [splitSeg, hsplit, hc]
      · intro t ht
        rcases List.mem_cons.mp ht with h | h
        · subst h
          exact ⟨List.infix_cons ( List.IsPrefix.isInfix hpre), hs⟩
        · exact ⟨List.infix_cons (hss t h).1, (hss t h).2⟩
    · refine ⟨c :: s, ss, ?_, ?_, ?_, ?_⟩
      · simp [splitSeg, hsplit, hc]
      · exact List.cons_prefix_cons.mpr ⟨rfl, hpre⟩
      · simp [hs, Ne.symm hc]
      · intro t ht
        exact ⟨List.infix_cons (hss t ht).1, (hss t ht).2⟩

theorem mem_splitSeg_part {l : PathStr} {t : PathStr} (h : t ∈ splitSeg l) :
    t <:+: l := by
  obtain ⟨s, ss, hsplit, hpre, _, hss⟩ := splitSeg_structure l
  rw [hsplit] at h
  rcases List.mem_cons.mp h with h | h
  · subst h; exact List.IsPrefix.isInfix hpre
  · exact (hss t h).1

theorem mem_splitSeg_no_slash {l : PathStr} {t : PathStr} (h : t ∈ splitSeg l) :
    '/' ∉ t := by
  obtain ⟨s, ss, hsplit, _, hs, hss⟩ := splitSeg_structure l
  rw [hsplit] at h
  rcases List.mem_cons.mp h with h | h
  · subst h; exact hs
  · exact (hss t h).2

theorem getLastD_splitSeg_no_slash (l : PathStr) :
    '/' ∉ (splitSeg l).getLastD [] := by
  have hne := splitSeg_ne_nil l
  have hmem : (splitSeg l).getLastD [] ∈ splitSeg l := by
    rw [List.getLastD_eq_getLast?]
    cases h : (splitSeg l).getLast? with
    | none => exact absurd (List.getLast?_eq_none_iff.mp h) hne
    | some t =>
      simp only [Option.getD_some]
      exact List.mem_of_getLast?_eq_some h
  exact mem_splitSeg_no_slash hmem

theorem alookup_registerEntry (idx : List (PathStr × PathStr))
    (name k : PathStr) :
    alookup (registerEntry idx name) k =
      if k ∈ derivedKeys name then some name else alookup idx k := by
  suffices h : ∀ (ks : List PathStr) (idx : List (PathStr × PathStr)),
      alookup (ks.foldl (fun i k' => upsert i k' name) idx) k =
        if k ∈ ks then some name else alookup idx k by
    exact h (derivedKeys name) idx
  intro ks
  induction ks with
  | nil => intro idx; simp
  | cons k0 rest ih =>
    intro idx
    simp only [List.foldl_cons, ih, alookup_upsert, List.mem_cons]
    by_cases h1 : k ∈ rest
    · simp [h1]
    · by_cases h2 : k = k0 <;> simp [h1, h2]

theorem lastProducer_cons (n : PathStr) (rest : List PathStr) (k : PathStr) :
    lastProducer (n :: rest) k =
      overrideWith (if producesKey n k then some n else none)
        (lastProducer rest k) := by
  simp only [lastProducer, List.filter_cons]
  by_cases hp : producesKey n k
  · simp only [hp, if_pos trivial]
    cases h : rest.filter (fun m => producesKey m k) with
    | nil => simp [h, hp]
    | cons x xs =>
      rw [List.getLast?_cons_cons]
      cases h2 : (x :: xs).getLast? with
      | none => simp at h2
      | some v => simp
  · simp [hp]

theorem alookup_get_zip_index (namelist : List PathStr) (k : PathStr) :
    alookup (get_zip_index namelist) k = lastProducer namelist k := by
  suffices h : ∀ (nl : List PathStr) (idx : List (PathStr × PathStr)),
      alookup
        (nl.foldl
          (fun i name => if isDirEntry name then i else registerEntry i name)
          idx) k =
        overrideWith (alookup idx k) (lastProducer nl k) by
    have := h namelist []
    simpa [get_zip_index] using this
  intro nl
  induction nl with
  | nil => intro idx; simp [lastProducer]
  | cons n rest ih =>
    intro idx
    simp only [List.foldl_cons, ih, lastProducer_cons, ← overrideWith_assoc]
    congr 1
    by_cases hd : isDirEntry n
    · have hp : producesKey n k = false := by simp [producesKey, hd]
      simp [hd, hp]
    · rw [if_neg hd, alookup_registerEntry]
      by_cases hk : k ∈ derivedKeys n
      · have hp : producesKey n k = true := by simp [producesKey, hd, hk]
        simp [hk, hp]
      · have hp : producesKey n k = false := by simp [producesKey, hk]
        simp [hk, hp]

/-- C2 counterexample: in the archive `[a/x.mp3, b/x.mp3]` both entries
derive the key `x.mp3`; the index resolves it to `b/x.mp3`, the entry
encountered later in enumeration order, while the first producer is
`a/x.mp3` — so the first entry does not win the contested key. -/
theorem zip_index_first_wins_counterexample :
    alookup (get_zip_index [String.toList "a/x.mp3", String.toList "b/x.mp3"])
        (String.toList "x.mp3") = some (String.toList "b/x.mp3")
      ∧ firstProducer [String.toList "a/x.mp3", String.toList "b/x.mp3"]
          (String.toList "x.mp3") = some (String.toList "a/x.mp3")
      ∧ String.toList "b/x.mp3" ≠ String.toList "a/x.mp3" := by
  refine ⟨by decide, by decide, by decide⟩

/-- C2 (amended): when two distinct archive entries produce the same
derived lookup key during index construction, the LAST entry
encountered in enumeration order wins the contested key: for every
archive and every derived key, resolving that key yields the latest
non-directory entry in enumeration order that produces it. -/
theorem zip_index_last_entry_wins (namelist : List PathStr) (k : PathStr) :
    alookup (get_zip_index namelist) k = lastProducer namelist k :=
  alookup_get_zip_index namelist k

/-- C3 counterexample: `y.png` is a derived key of the non-directory
entry `d1/y.png` of the archive `[d1/y.png, d2/y.png]`, yet it does not
resolve to that entry's internal path (the later entry `d2/y.png` stole
the key), refuting the claim that each derived key of every entry
resolves to that entry's internal path. -/
theorem zip_index_all_variants_counterexample :
    String.toList "y.png" ∈ derivedKeys (String.toList "d1/y.png")
      ∧ String.toList "d1/y.png"
          ∈ [String.toList "d1/y.png", String.toList "d2/y.png"]
      ∧ isDirEntry (String.toList "d1/y.png") = false
      ∧ alookup
          (get_zip_index [String.toList "d1/y.png", String.toList "d2/y.png"])
          (String.toList "y.png") ≠ some (String.toList "d1/y.png") := by
  refine ⟨by decide, by decide, by decide, by decide⟩

/-- C3 (amended): for every non-directory entry E of an archive, the
built index registers E under its full internal path, its basename, and
its tail-1/tail-2 variants (the elements of `derivedKeys`): each such
key is present in the index and resolves to the internal path of some
non-directory entry deriving the same key, and it resolves to E itself
whenever E is the last entry in enumeration order producing that key
(in particular whenever no other entry produces it). -/
theorem zip_index_registers_all_variants (namelist : List PathStr)
    (name k : PathStr) (hmem : name ∈ namelist)
    (hdir : isDirEntry name = false) (hk : k ∈ derivedKeys name) :
    (∃ v, alookup (get_zip_index namelist) k = some v ∧ v ∈ namelist
        ∧ isDirEntry v = false ∧ k ∈ derivedKeys v)
    ∧ (lastProducer namelist k = some name →
        alookup (get_zip_index namelist) k = some name) := by
  have hres := alookup_get_zip_index namelist k
  have hprod : producesKey name k = true := by
    simp [producesKey, hdir, hk]
  have hfil : name ∈ namelist.filter (fun n => producesKey n k) :=
    List.mem_filter.mpr ⟨hmem, hprod⟩
  constructor
  · cases hlast : (namelist.filter (fun n => producesKey n k)).getLast? with
    | none =>
      have : namelist.filter (fun n => producesKey n k) = [] :=
        List.getLast?_eq_none_iff.mp hlast
      rw [this] at hfil
      exact absurd hfil (List.not_mem_nil name)
    | some v =>
      have hv : v ∈ namelist.filter (fun n => producesKey n k) :=
        List.mem_of_getLast?_eq_some hlast
      have hv1 : v ∈ namelist := (List.mem_filter.mp hv).1
      have hv2 : producesKey v k = true := (List.mem_filter.mp hv).2
      have hv2' : isDirEntry v = false ∧ k ∈ derivedKeys v := by
        simpa [producesKey] using hv2
      exact ⟨v, by rw [hres]; exact hlast, hv1, hv2'.1, hv2'.2⟩
  · intro hlp
    rw [hres]; exact hlp

/-- C3 witness: the spec scenario — archive with single internal path
`media/audios/word1.mp3`; the key `audios/word1.mp3` resolves to it. -/
theorem zip_index_registers_all_variants_witness :
    alookup (get_zip_index [String.toList "media/audios/word1.mp3"])
        (String.toList "audios/word1.mp3")
      = some (String.toList "media/audios/word1.mp3") := by
  have h := zip_index_registers_all_variants
    [String.toList "media/audios/word1.mp3"]
    (String.toList "media/audios/word1.mp3")
    (String.toList "audios/word1.mp3")
    (by decide) (by decide) (by decide)
  exact h.2 (by decide)

theorem resolveSegs_append (acc : List PathStr) (xs ys : List PathStr) :
    resolveSegs acc (xs ++ ys) = resolveSegs (resolveSegs acc xs) ys := by
  induction xs generalizing acc with
  | nil => simp [resolveSegs]
  | cons seg rest ih =>
    by_cases h1 : seg = ['.', '.']
    · simp [resolveSegs, h1, ih]
    · by_cases h2 : seg = [] ∨ seg = ['.']
      · simp [resolveSegs, h1, h2, ih]
      · simp [resolveSegs, h1, h2, ih]

theorem prefix_resolveSegs (acc : List PathStr) (segs : List PathStr)
    (h : ∀ s ∈ segs, s ≠ ['.', '.']) : acc <+: resolveSegs acc segs := by
  induction segs generalizing acc with
  | nil => exact List.prefix_rfl
  | cons seg rest ih =>
    have hseg : seg ≠ ['.', '.'] := h seg (by simp)
    have hrest : ∀ s ∈ rest, s ≠ ['.', '.'] := fun s hs => h s (by simp [hs])
    by_cases h2 : seg = [] ∨ seg = ['.']
    · simp only [resolveSegs, if_neg hseg, if_pos h2]
      exact ih acc hrest
    · simp only [resolveSegs, if_neg hseg, if_neg h2]
      exact List.IsPrefix.trans (List.prefix_append acc [seg])
        (ih (acc ++ [seg]) hrest)

/-- C9: every auxiliary filename containing the substring `..` or
beginning with `/` is rejected with a client error before any
filesystem path is constructed; consequently every path served by the
endpoint resolves to a path below the auxiliary root, so no file
outside the auxiliary root is ever returned via path traversal. -/
theorem get_auxiliary_file_safe (auxRoot : List PathStr)
    (fs : List PathStr → Bool) (filename : PathStr) :
    ((['.', '.'] <:+: filename ∨ filename.head? = some '/') →
        get_auxiliary_file auxRoot fs filename = AuxiResult.rejected)
    ∧ (∀ p, get_auxiliary_file auxRoot fs filename = AuxiResult.served p →
        resolveSegs [] auxRoot <+: resolveSegs [] p) := by
  constructor
  · intro h
    simp [get_auxiliary_file, h]
  · intro p hp
    by_cases h : ['.', '.'] <:+: filename ∨ filename.head? = some '/'
    · simp [get_auxiliary_file, h] at hp
    · have hdot : ¬(['.', '.'] <:+: filename) := fun hc => h (Or.inl hc)
      have hp' : p = auxRoot ++ splitSeg filename := by
        by_cases hfs : fs (resolveSegs [] (auxRoot ++ splitSeg filename))
        · simp [get_auxiliary_file, h, hfs] at hp
          exact hp.symm
        · simp [get_auxiliary_file, h, hfs] at hp
      subst hp'
      rw [resolveSegs_append]
      refine prefix_resolveSegs _ _ ?_
      intro s hs hcon
      subst hcon
      exact hdot (mem_splitSeg_part hs)

/-- C9 witness: a traversal attempt `../secret` is rejected. -/
theorem get_auxiliary_file_safe_witness :
    get_auxiliary_file [String.toList "data", String.toList "auxiliary"]
        (fun _ => false) (String.toList "../secret") = AuxiResult.rejected :=
  (get_auxiliary_file_safe [String.toList "data", String.toList "auxiliary"]
      (fun _ => false) (String.toList "../secret")).1 (Or.inl (by decide))

theorem mem_foldl_upsert_key {γ : Type} (l : List γ) (fkey : γ → PathStr)
    (fval : γ → List Nat) (db0 : List (PathStr × List Nat))
    (kv : PathStr × List Nat)
    (h : kv ∈ l.foldl (fun db e => upsert db (fkey e) (fval e)) db0) :
    kv ∈ db0 ∨ ∃ e ∈ l, kv.1 = fkey e := by
  induction l generalizing db0 with
  | nil => exact Or.inl h
  | cons e rest ih =>
    rcases ih (upsert db0 (fkey e) (fval e)) h with h' | h'
    · rcases mem_upsert_key db0 (fkey e) (fval e) kv h' with h'' | h''
      · exact Or.inr ⟨e, by simp, h''⟩
      · exact Or.inl h''
    · obtain ⟨e', he', hk⟩ := h'
      exact Or.inr ⟨e', by simp [he'], hk⟩

/-- C10: migration from a zip archive stores every non-directory entry
under its basename only (which contains no `/`), and the audio/image
lookup matches the stored name exactly; hence a request path containing
a directory separator never matches any migrated record. -/
theorem migrated_lookup_no_slash (filelist : List (PathStr × Bool))
    (content : PathStr → List Nat) (file_path : PathStr) :
    (∀ kv ∈ migrateMediaDb filelist content, '/' ∉ kv.1)
    ∧ ('/' ∈ file_path →
        get_audio_from_db (migrateMediaDb filelist content) file_path
          = none) := by
  have hkeys : ∀ kv ∈ migrateMediaDb filelist content, '/' ∉ kv.1 := by
    intro kv hkv
    rw [migrateMediaDb] at hkv
    rcases mem_foldl_upsert_key (filelist.filter (fun e => !e.2))
        (fun e => (splitSeg e.1).getLastD []) (fun e => content e.1) [] kv
        hkv with h | h
    · exact absurd h (List.not_mem_nil kv)
    · obtain ⟨e, _, hk⟩ := h
      rw [hk]
      exact getLastD_splitSeg_no_slash e.1
  refine ⟨hkeys, fun hslash => ?_⟩
  apply alookup_eq_none
  intro kv hkv hcon
  exact hkeys kv hkv (hcon ▸ hslash)

/-- C10 witness: an entry `media/a.mp3` is stored as `a.mp3`, so the
request path `media/a.mp3` — which the zip index WOULD resolve via its
identity key — matches nothing in the migrated media database. -/
theorem migrated_lookup_no_slash_witness :
    get_audio_from_db
        (migrateMediaDb [(String.toList "media/a.mp3", false)] (fun _ => [7]))
        (String.toList "media/a.mp3") = none
    ∧ alookup (get_zip_index [String.toList "media/a.mp3"])
        (String.toList "media/a.mp3")
      = some (String.toList "media/a.mp3") :=
  ⟨(migrated_lookup_no_slash [(String.toList "media/a.mp3", false)]
      (fun _ => [7]) (String.toList "media/a.mp3")).2 (by decide), by decide⟩

@[simp]
theorem decStr_encStr_append (s r : Bytes) :
    decStr (encStr s ++ r) = some (s, r) := by
  simp [encStr, decStr, List.take_left, List.drop_left]

@[simp]
theorem zstdDecompress_zstdCompress (d data : Bytes) :
    zstdDecompress ⟨d⟩ (zstdCompress d data) = some data := by
  simp [zstdCompress, zstdDecompress]

theorem decPairs_encPairs (v : JsonObj) (r : Bytes) :
    decPairs v.length (encPairs v ++ r) = some (v, r) := by
  induction v generalizing r with
  | nil => simp [encPairs, decPairs]
  | cons kv rest ih =>
    obtain ⟨k, w⟩ := kv
    have hrw : encPairs ((k, w) :: rest) ++ r
        = encStr k ++ (encStr w ++ (encPairs rest ++ r)) := by
      simp [encPairs]
    rw [hrw, List.length_cons]
    simp [decPairs, ih]

@[simp]
theorem jsonParse_jsonSerialize (v : JsonObj) :
    jsonParse (jsonSerialize v) = some v := by
  have h := decPairs_encPairs v []
  rw [List.append_nil] at h
  simp [jsonSerialize, jsonParse, h, jsonMagic]

@[simp]
theorem zstdDecompress_jsonSerialize (ctx : ZstdDecompressor) (v : JsonObj) :
    zstdDecompress ctx (jsonSerialize v) = none := by
  simp [jsonSerialize, zstdDecompress, jsonMagic, zstdMagic]

@[simp]
theorem jsonParse_zstdCompress (zdict data : Bytes) :
    jsonParse (zstdCompress zdict data) = none := by
  simp only [zstdCompress, encStr, List.cons_append]
  simp [jsonParse, zstdMagic, jsonMagic]

/-- C4: `decompress_json_data` is total (it returns a structured value
for every blob and decompressor state; library failures are handled,
never re-raised) and follows the claimed fallback chain: a missing blob
gives `{}`; when training-seeded decompression succeeds the result is
the parse of its output, defaulting to `{}`; when it fails the input is
parsed as already-decoded structured bytes, defaulting to `{}`; without
a decompressor the input is parsed directly. -/
theorem decompress_json_data_chain (data : Bytes) (dctx : ZstdDecompressor) :
    decompress_json_data none (some dctx) = emptyJson
    ∧ (∀ out, zstdDecompress dctx data = some out →
        decompress_json_data (some data) (some dctx)
          = (jsonParse out).getD emptyJson)
    ∧ (zstdDecompress dctx data = none →
        decompress_json_data (some data) (some dctx)
          = (jsonParse data).getD emptyJson)
    ∧ decompress_json_data (some data) none
        = (jsonParse data).getD emptyJson := by
  refine ⟨rfl, ?_, ?_, ?_⟩
  · intro out hout
    simp only [decompress_json_data, hout]
    cases jsonParse out <;> simp
  · intro hnone
    simp only [decompress_json_data, hnone]
    cases jsonParse data <;> simp
  · simp only [decompress_json_data]
    cases jsonParse data <;> simp

/-- C4 witness: concrete runs of the fallback chain — garbage under a
plain context gives `{}`, and a well-formed frame decompresses and
parses. -/
theorem decompress_json_data_chain_witness :
    decompress_json_data (some [0]) (some ⟨[]⟩) = emptyJson
    ∧ decompress_json_data (some (zstdCompress [] (jsonSerialize [([1], [2])])))
        (some ⟨[]⟩) = [([1], [2])] := by
  constructor
  · have h := (decompress_json_data_chain [0] ⟨[]⟩).2.2.1 (by decide)
    rw [h]; decide
  · have h := (decompress_json_data_chain
        (zstdCompress [] (jsonSerialize [([1], [2])])) ⟨[]⟩).2.1
        (jsonSerialize [([1], [2])]) (zstdDecompress_zstdCompress [] _)
    rw [h, jsonParse_jsonSerialize]
    rfl

/-- C5 counterexample: for a dictionary whose database is unreachable
(`get_db_connection` returns `None`), `get_zstd_decompressor` returns
`None` — not a valid decompression context — and caches nothing,
refuting the claim for every `dict_id`. -/
theorem get_zstd_decompressor_counterexample :
    get_zstd_decompressor (fun _ => none) [] "missing"
      = (none, ([] : List (String × ZstdDecompressor))) := rfl

/-- C5 (amended): for every `dict_id` already cached, the cached context
is returned and the cache is unchanged; for every uncached `dict_id`
whose database is reachable, a valid context is returned and cached
under `dict_id`: dictionary-seeded exactly when the stored training
blob is present and truthy (and the config query succeeded), plain
otherwise — a dictionary with no training blob is cached as a valid
plain context, never as absent. -/
theorem get_zstd_decompressor_caches (env : String → Option DictDbConn)
    (cache : List (String × ZstdDecompressor)) (dict_id : String) :
    (∀ c, alookup cache dict_id = some c →
        get_zstd_decompressor env cache dict_id = (some c, cache))
    ∧ (alookup cache dict_id = none → ∀ conn, env dict_id = some conn →
        ∃ c, get_zstd_decompressor env cache dict_id
            = (some c, upsert cache dict_id c)
          ∧ c.dict = (if !conn.configFails && pyTruthyBytes conn.zstdDictRow
              then conn.zstdDictRow.getD [] else [])) := by
  constructor
  · intro c hc
    simp [get_zstd_decompressor, hc]
  · intro hmiss conn hconn
    simp only [get_zstd_decompressor, hmiss, hconn]
    by_cases hf : conn.configFails
    · refine ⟨⟨[]⟩, ?_, ?_⟩
      · simp [hf]
      · simp [hf]
    · cases hrow : conn.zstdDictRow with
      | none => exact ⟨⟨[]⟩, by simp [hf, hrow], by simp [hf, hrow, pyTruthyBytes]⟩
      | some b =>
        by_cases hb : b.isEmpty
        · refine ⟨⟨[]⟩, by simp [hf, hrow, hb], ?_⟩
          simp [hf, hrow, hb, pyTruthyBytes]
        · refine ⟨⟨b⟩, by simp [hf, hrow, hb], ?_⟩
          simp [hf, hrow, hb, pyTruthyBytes]

/-- C5 witness: a dictionary with a stored training blob `[1, 2]` gets
a seeded context, cached under its id. -/
theorem get_zstd_decompressor_caches_witness :
    get_zstd_decompressor (fun _ => some ⟨false, some [1, 2]⟩) [] "en"
      = (some ⟨[1, 2]⟩, [("en", ⟨[1, 2]⟩)]) := by
  have h := (get_zstd_decompressor_caches
      (fun _ => some ⟨false, some [1, 2]⟩) [] "en").2 rfl
      ⟨false, some [1, 2]⟩ rfl
  obtain ⟨c, hc, hdict⟩ := h
  have hceq : c = ⟨[1, 2]⟩ := by
    cases c
    simp only at hdict
    simp [hdict, pyTruthyBytes]
  rw [hceq] at hc
  exact hc

/-- C6: compression round-trips through decompression: for every
structured value and every optional training blob, compressing the
value's serialized bytes and decompressing with a context seeded the
same way returns an equal value; decompressing plain uncompressed
structured bytes returns the value they encode (under any decompressor
state); and decompressing any blob that neither decompresses nor parses
returns the empty structured value without raising. -/
theorem compress_entry_roundtrip (v : JsonObj) (zdict : Option Bytes)
    (g : Bytes) (dctx : Option ZstdDecompressor) :
    decompress_json_data (some (compress_entry (jsonSerialize v) zdict))
        (some ⟨if pyTruthyBytes zdict then zdict.getD [] else []⟩) = v
    ∧ decompress_json_data (some (jsonSerialize v)) dctx = v
    ∧ ((∀ c : ZstdDecompressor, zstdDecompress c g = none) →
        jsonParse g = none → decompress_json_data (some g) dctx = emptyJson) := by
  refine ⟨?_, ?_, ?_⟩
  · by_cases ht : pyTruthyBytes zdict
    · simp [compress_entry, decompress_json_data, ht]
    · simp [compress_entry, decompress_json_data, ht]
  · cases dctx with
    | none => simp [decompress_json_data]
    | some c => simp [decompress_json_data]
  · intro hzstd hjson
    cases dctx with
    | none => simp [decompress_json_data, hjson]
    | some c => simp [decompress_json_data, hzstd c, hjson]

/-- C6 witness: a concrete round trip with training blob `[5]`, a plain
parse, and the garbage blob `[0]`. -/
theorem compress_entry_roundtrip_witness :
    decompress_json_data
        (some (compress_entry (jsonSerialize [([1], [2])]) (some [5])))
        (some ⟨[5]⟩) = [([1], [2])]
    ∧ decompress_json_data (some [0]) none = emptyJson := by
  constructor
  · have h := (compress_entry_roundtrip [([1], [2])] (some [5]) [0] none).1
    simpa [pyTruthyBytes] using h
  · exact (compress_entry_roundtrip [([1], [2])] (some [5]) [0] none).2.2
      (fun c => by simp [zstdDecompress, zstdMagic]) (by decide)

theorem charListLeb_total : ∀ x y : List Char,
    charListLeb x y = true ∨ charListLeb y x = true := by
  intro x
  induction x with
  | nil => intro y; left; rfl
  | cons a as ih =>
    intro y
    cases y with
    | nil => right; rfl
    | cons b bs =>
      rcases lt_trichotomy a b with h | h | h
      · left; simp [charListLeb, h]
      · subst h
        rcases ih bs with h' | h'
        · left; simp [charListLeb, lt_irrefl, h']
        · right; simp [charListLeb, lt_irrefl, h']
      · right; simp [charListLeb, h]

theorem charListLeb_trans : ∀ x y z : List Char,
    charListLeb x y = true → charListLeb y z = true →
      charListLeb x z = true := by
  intro x
  induction x with
  | nil => intro y z _ _; rfl
  | cons a as ih =>
    intro y z hxy hyz
    cases y with
    | nil => simp [charListLeb] at hxy
    | cons b bs =>
      cases z with
      | nil => simp [charListLeb] at hyz
      | cons c cs =>
        rcases lt_trichotomy a b with hab | hab | hab
        · rcases lt_trichotomy b c with hbc | hbc | hbc
          · simp [charListLeb, lt_trans hab hbc]
          · subst hbc
            simp [charListLeb, hab]
          · simp [charListLeb, hbc, lt_asymm hbc] at hyz
        · subst hab
          rcases lt_trichotomy a c with hac | hac | hac
          · simp [charListLeb, hac]
          · subst hac
            have hxy' : charListLeb as bs = true := by
              simpa [charListLeb, lt_self_iff_false] using hxy
            have hyz' : charListLeb bs cs = true := by
              simpa [charListLeb, lt_self_iff_false] using hyz
            simpa [charListLeb, lt_self_iff_false] using ih bs cs hxy' hyz'
          · simp [charListLeb, hac, lt_asymm hac] at hyz
        · simp [charListLeb, hab, lt_asymm hab] at hxy

/-- C7: for every dictionary and every window with
`from_version >= to_version` (equal versions included), the manifest
has both the file set and the entry collection empty — a valid no-op
result, not an error. -/
theorem compute_required_files_noop (ledger : List VersionRecord)
    (dict_id : String) (fromV toV : Int) (h : toV ≤ fromV) :
    compute_required_files ledger dict_id fromV toV
      = { files := [], entries := [] } := by
  have hfil : ledger.filter (fun r =>
      r.dict_id == dict_id && decide (fromV < r.version)
        && decide (r.version ≤ toV)) = [] := by
    apply List.filter_eq_nil_iff.mpr
    intro r _
    simp only [Bool.and_eq_true, decide_eq_true_eq, not_and, beq_iff_eq]
    intro ⟨_, hlt⟩
    omega
  have hq : queryHistory ledger dict_id fromV toV = [] := by
    simp [queryHistory, hfil]
  simp [compute_required_files, hq, List.insertionSort]

/-- C7 witness: an equal-version window on a one-record ledger. -/
theorem compute_required_files_noop_witness :
    compute_required_files [⟨"en", 1, "m", "file", "metadata.json", 0⟩]
        "en" 3 3 = { files := [], entries := [] } :=
  compute_required_files_noop [⟨"en", 1, "m", "file", "metadata.json", 0⟩]
    "en" 3 3 (by decide)

/-- C8: `next_version` is one greater than the dictionary's current
maximum recorded version — a strict upper bound on every record's
version, attained at some record — and is `1` when the dictionary has
no ledger records. -/
theorem next_version_spec (ledger : List VersionRecord) (dict_id : String) :
    (ledger.filter (fun r => r.dict_id == dict_id) = [] →
        next_version ledger dict_id = 1)
    ∧ (∀ r ∈ ledger.filter (fun r => r.dict_id == dict_id),
        r.version < next_version ledger dict_id)
    ∧ (ledger.filter (fun r => r.dict_id == dict_id) ≠ [] →
        ∃ r ∈ ledger.filter (fun r => r.dict_id == dict_id),
          next_version ledger dict_id = r.version + 1) := by
  refine ⟨?_, ?_, ?_⟩
  · intro hnil
    simp [next_version, hnil]
  · intro r hr
    have hmem : r.version
        ∈ (ledger.filter (fun r => r.dict_id == dict_id)).map
            (fun r => r.version) :=
      List.mem_map_of_mem (fun r => r.version) hr
    have hsome : ((ledger.filter (fun r => r.dict_id == dict_id)).map
        (fun r => r.version)).max?.isSome :=
      List.isSome_max?_of_mem hmem
    obtain ⟨m, hm⟩ := Option.isSome_iff_exists.mp hsome
    have hle : r.version ≤ m :=
      ((List.max?_le_iff (fun a b c => max_le_iff) hm).mp le_rfl) r.version hmem
    simp only [next_version, hm, Option.getD_some]
    omega
  · intro hne
    have hne' : (ledger.filter (fun r => r.dict_id == dict_id)).map
        (fun r => r.version) ≠ [] := by
      simpa using hne
    cases hm : ((ledger.filter (fun r => r.dict_id == dict_id)).map
        (fun r => r.version)).max? with
    | none => exact absurd (List.max?_eq_none_iff.mp hm) hne'
    | some m =>
      have hmem : m ∈ (ledger.filter (fun r => r.dict_id == dict_id)).map
          (fun r => r.version) :=
        List.max?_mem (fun a b => max_choice a b) hm
      obtain ⟨r, hr, hrv⟩ := List.mem_map.mp hmem
      refine ⟨r, hr, ?_⟩
      simp [next_version, hm, hrv]

/-- C8 witness: on a two-record ledger for `en` (max version 3) the
record of version 3 is strictly below the next version, and an
unrelated dictionary with no records gets next version 1. -/
theorem next_version_spec_witness :
    (3 : Int) < next_version [⟨"en", 3, "m", "entry", "", 7⟩,
        ⟨"en", 2, "m", "file", "a", 0⟩] "en"
    ∧ next_version [⟨"en", 3, "m", "entry", "", 7⟩,
        ⟨"en", 2, "m", "file", "a", 0⟩] "fr" = 1 := by
  constructor
  · exact (next_version_spec [⟨"en", 3, "m", "entry", "", 7⟩,
      ⟨"en", 2, "m", "file", "a", 0⟩] "en").2.1
      ⟨"en", 3, "m", "entry", "", 7⟩ (by decide)
  · exact (next_version_spec [⟨"en", 3, "m", "entry", "", 7⟩,
      ⟨"en", 2, "m", "file", "a", 0⟩] "fr").1 (by decide)

theorem stepRecord_eq (st : List String × List Int) (r : VersionRecord) :
    stepRecord st r = (stepFile st.1 r, stepEntry st.2 r) := by
  by_cases h1 : r.change_type == "file"
  · by_cases h2 : r.file_name == "dictionary.db" <;>
      simp [stepRecord, stepFile, stepEntry, h1, h2]
  · by_cases h3 : r.change_type == "entry" <;>
      simp [stepRecord, stepFile, stepEntry, h1, h3]

theorem foldl_stepRecord_split (rows : List VersionRecord)
    (st : List String × List Int) :
    rows.foldl stepRecord st
      = (rows.foldl stepFile st.1, rows.foldl stepEntry st.2) := by
  induction rows generalizing st with
  | nil => rfl
  | cons r rest ih =>
    simp only [List.foldl_cons, stepRecord_eq]
    exact ih (stepFile st.1 r, stepEntry st.2 r)

theorem mem_insertSet (l : List String) (x y : String) :
    x ∈ insertSet l y ↔ x ∈ l ∨ x = y := by
  by_cases h : y ∈ l
  · simp only [insertSet, if_pos h]
    constructor
    · exact Or.inl
    · rintro (hx | rfl)
      · exact hx
      · exact h
  · simp [insertSet, h]

theorem nodup_insertSet (l : List String) (y : String) (h : l.Nodup) :
    (insertSet l y).Nodup := by
  by_cases hy : y ∈ l
  · simpa [insertSet, hy] using h
  · simp [insertSet, hy, List.nodup_append, h, List.disjoint_singleton]

theorem mem_foldl_stepFile (rows : List VersionRecord) (fs : List String)
    (x : String) :
    x ∈ rows.foldl stepFile fs ↔ x ∈ fs ∨ x ∈ fileNamesOf rows := by
  induction rows generalizing fs with
  | nil => simp [fileNamesOf]
  | cons r rest ih =>
    by_cases hf : r.change_type == "file"
    · simp only [List.foldl_cons, stepFile, if_pos hf, ih, fileNamesOf,
        List.filterMap_cons, hf, ite_true, List.mem_cons, mem_insertSet]
      tauto
    · have hf' : r.change_type ≠ "file" := by simpa using hf
      have hids : fileNamesOf (r :: rest) = fileNamesOf rest := by
        simp [fileNamesOf, List.filterMap_cons, hf']
      rw [List.foldl_cons, show stepFile fs r = fs from by simp [stepFile, hf],
        ih, hids]

theorem nodup_foldl_stepFile (rows : List VersionRecord) (fs : List String)
    (h : fs.Nodup) : (rows.foldl stepFile fs).Nodup := by
  induction rows generalizing fs with
  | nil => exact h
  | cons r rest ih =>
    simp only [List.foldl_cons]
    apply ih
    by_cases hf : r.change_type == "file"
    · simp only [stepFile, if_pos hf]
      exact nodup_insertSet fs r.file_name h
    · simpa [stepFile, hf] using h

@[simp]
theorem dedupFirst_nil : dedupFirst [] = [] := by
  rw [dedupFirst]

@[simp]
theorem dedupFirst_cons (x : Int) (l : List Int) :
    dedupFirst (x :: l) = x :: dedupFirst (l.filter (fun y => y ≠ x)) := by
  rw [dedupFirst]

theorem insertAll_eq_dedupFirst (ids : List Int) :
    ∀ acc : List Int,
      insertAll acc ids
        = acc ++ dedupFirst (ids.filter (fun x => decide (x ∉ acc))) := by
  induction ids with
  | nil => intro acc; simp [insertAll]
  | cons x rest ih =>
    intro acc
    by_cases hx : x ∈ acc
    · have hstep : insertOrd acc x = acc := by simp [insertOrd, hx]
      have hfil : (x :: rest).filter (fun y => decide (y ∉ acc))
          = rest.filter (fun y => decide (y ∉ acc)) := by
        simp [List.filter_cons, hx]
      calc insertAll acc (x :: rest)
          = insertAll acc rest := by simp [insertAll, hstep]
        _ = acc ++ dedupFirst (rest.filter (fun y => decide (y ∉ acc))) :=
            ih acc
        _ = acc ++ dedupFirst ((x :: rest).filter
              (fun y => decide (y ∉ acc))) := by rw [hfil]
    · have hstep : insertOrd acc x = acc ++ [x] := by simp [insertOrd, hx]
      have hfil : rest.filter (fun y => decide (y ∉ acc ++ [x]))
          = (rest.filter (fun y => decide (y ∉ acc))).filter
              (fun y => y ≠ x) := by
        rw [List.filter_filter]
        apply List.filter_congr
        intro y _
        by_cases h1 : y ∈ acc <;> by_cases h2 : y = x <;>
          simp [h1, h2, List.mem_append]
      have hfil2 : (x :: rest).filter (fun y => decide (y ∉ acc))
          = x :: rest.filter (fun y => decide (y ∉ acc)) := by
        simp [List.filter_cons, hx]
      calc insertAll acc (x :: rest)
          = insertAll (acc ++ [x]) rest := by
            simp [insertAll, hstep]
        _ = (acc ++ [x]) ++ dedupFirst (rest.filter
              (fun y => decide (y ∉ acc ++ [x]))) := ih (acc ++ [x])
        _ = acc ++ (x :: dedupFirst ((rest.filter
              (fun y => decide (y ∉ acc))).filter
                (fun y => y ≠ x))) := by
            rw [hfil, List.append_assoc]
            rfl
        _ = acc ++ dedupFirst ((x :: rest).filter
              (fun y => decide (y ∉ acc))) := by
            rw [hfil2, dedupFirst_cons]

theorem insertAll_nil_eq_dedupFirst (ids : List Int) :
    insertAll [] ids = dedupFirst ids := by
  have h := insertAll_eq_dedupFirst ids []
  simpa using h

theorem sinceLastClear_of_no_clear (rows : List VersionRecord)
    (h : rows.any isClearRec = false) : sinceLastClear rows = rows := by
  cases rows with
  | nil => rfl
  | cons r rest =>
    simp only [List.any_cons, Bool.or_eq_false_iff] at h
    simp [sinceLastClear, h.1, h.2]

theorem foldl_stepEntry_spec (rows : List VersionRecord) :
    ∀ acc : List Int,
      rows.foldl stepEntry acc
        = if rows.any isClearRec then
            dedupFirst (entryIdsOf (sinceLastClear rows))
          else insertAll acc (entryIdsOf rows) := by
  induction rows with
  | nil => intro acc; simp [insertAll, entryIdsOf]
  | cons r rest ih =>
    intro acc
    simp only [List.foldl_cons, List.any_cons]
    by_cases hrest : rest.any isClearRec = true
    · rw [ih (stepEntry acc r)]
      rw [if_pos hrest, if_pos (by simp [hrest])]
      have hsince : sinceLastClear (r :: rest) = sinceLastClear rest := by
        simp [sinceLastClear, hrest]
      rw [hsince]
    · by_cases hr : isClearRec r = true
      · have hr' : r.change_type = "file" ∧ r.file_name = "dictionary.db" := by
          simpa [isClearRec] using hr
        have hstep : stepEntry acc r = [] := by
          simp [stepEntry, hr'.1, hr'.2]
        have hsince : sinceLastClear (r :: rest) = rest := by
          simp only [sinceLastClear]
          rw [if_neg (by simpa using hrest), if_pos hr]
        rw [hstep, ih [], if_neg hrest, insertAll_nil_eq_dedupFirst,
          if_pos (by simp [hr]), hsince]
      · rw [ih (stepEntry acc r), if_neg hrest,
          if_neg (fun hcon => (Bool.or_eq_true _ _).mp hcon
            |>.elim hr hrest)]
        by_cases h1 : r.change_type = "file"
        · have h2 : r.file_name ≠ "dictionary.db" := by
            intro hdb
            exact hr (by simp [isClearRec, h1, hdb])
          have hstep : stepEntry acc r = acc := by
            simp [stepEntry, h1, h2]
          have hids : entryIdsOf (r :: rest) = entryIdsOf rest := by
            simp [entryIdsOf, List.filterMap_cons, h1]
          rw [hstep, hids]
        · by_cases h3 : r.change_type = "entry"
          · have hstep : stepEntry acc r = insertOrd acc r.entry_id := by
              simp [stepEntry, h1, h3]
            have hids : entryIdsOf (r :: rest)
                = r.entry_id :: entryIdsOf rest := by
              simp [entryIdsOf, List.filterMap_cons, h3]
            rw [hstep, hids]
            rfl
          · have hstep : stepEntry acc r = acc := by
              simp [stepEntry, h1, h3]
            have hids : entryIdsOf (r :: rest) = entryIdsOf rest := by
              simp [entryIdsOf, List.filterMap_cons, h3]
            rw [hstep, hids]

/-- C1: for every dictionary and version window, the manifest is the
ascending-version scan of the window's ledger records in which each
`file` record adds its file name to the required-files set, a `file`
record targeting `dictionary.db` clears the entries accumulated so far,
and each `entry` record adds its entry id with duplicates collapsed to
the first-seen position: the files component is the duplicate-free
sorted list of exactly the window's file names, and the entries
component is the first-seen-deduplicated list of the entry ids recorded
after the last `dictionary.db` replacement. -/
theorem compute_required_files_spec (ledger : List VersionRecord)
    (dict_id : String) (fromV toV : Int) :
    (compute_required_files ledger dict_id fromV toV).files.Sorted strLe
    ∧ (compute_required_files ledger dict_id fromV toV).files.Nodup
    ∧ (∀ f, f ∈ (compute_required_files ledger dict_id fromV toV).files ↔
        f ∈ fileNamesOf (queryHistory ledger dict_id fromV toV))
    ∧ (compute_required_files ledger dict_id fromV toV).entries
        = dedupFirst (entryIdsOf
            (sinceLastClear (queryHistory ledger dict_id fromV toV))) := by
  haveI : IsTotal String strLe :=
    ⟨fun a b => charListLeb_total a.data b.data⟩
  haveI : IsTrans String strLe :=
    ⟨fun a b c => charListLeb_trans a.data b.data c.data⟩
  have hsplit := foldl_stepRecord_split
    (queryHistory ledger dict_id fromV toV) ([], [])
  have hfiles : (compute_required_files ledger dict_id fromV toV).files
      = List.insertionSort strLe
          ((queryHistory ledger dict_id fromV toV).foldl stepFile []) := by
    simp [compute_required_files, hsplit]
  have hentries : (compute_required_files ledger dict_id fromV toV).entries
      = (queryHistory ledger dict_id fromV toV).foldl stepEntry [] := by
    simp [compute_required_files, hsplit]
  refine ⟨?_, ?_, ?_, ?_⟩
  · rw [hfiles]
    exact List.sorted_insertionSort strLe _
  · rw [hfiles]
    exact (List.perm_insertionSort strLe _).symm.nodup
      (nodup_foldl_stepFile _ [] List.nodup_nil)
  · intro f
    rw [hfiles, (List.perm_insertionSort strLe _).mem_iff,
      mem_foldl_stepFile]
    simp
  · rw [hentries, foldl_stepEntry_spec]
    by_cases h : (queryHistory ledger dict_id fromV toV).any isClearRec
    · simp [h]
    · rw [if_neg h, insertAll_nil_eq_dedupFirst,
        sinceLastClear_of_no_clear _ (by simpa using h)]

/-- Validation of C1 on the spec's `en-fr` scenario: versions 1 and 2
accumulate two files and two entry patches, and the version-3 full
`dictionary.db` replacement clears the entry patches. -/
theorem compute_required_files_scenario :
    compute_required_files
        [⟨"en-fr", 1, "m1", "file", "metadata.json", 0⟩,
          ⟨"en-fr", 1, "m1", "file", "dictionary.db", 0⟩,
          ⟨"en-fr", 2, "m2", "entry", "", 42⟩,
          ⟨"en-fr", 2, "m2", "entry", "", 43⟩,
          ⟨"en-fr", 3, "m3", "file", "dictionary.db", 0⟩] "en-fr" 0 2
      = { files := ["dictionary.db", "metadata.json"], entries := [42, 43] }
    ∧ compute_required_files
        [⟨"en-fr", 1, "m1", "file", "metadata.json", 0⟩,
          ⟨"en-fr", 1, "m1", "file", "dictionary.db", 0⟩,
          ⟨"en-fr", 2, "m2", "entry", "", 42⟩,
          ⟨"en-fr", 2, "m2", "entry", "", 43⟩,
          ⟨"en-fr", 3, "m3", "file", "dictionary.db", 0⟩] "en-fr" 0 3
      = { files := ["dictionary.db", "metadata.json"], entries := [] }
    ∧ compute_required_files
        [⟨"en-fr", 1, "m1", "file", "metadata.json", 0⟩,
          ⟨"en-fr", 1, "m1", "file", "dictionary.db", 0⟩,
          ⟨"en-fr", 2, "m2", "entry", "", 42⟩,
          ⟨"en-fr", 2, "m2", "entry", "", 43⟩,
          ⟨"en-fr", 3, "m3", "file", "dictionary.db", 0⟩] "en-fr" 2 3
      = { files := ["dictionary.db"], entries := [] } := by
  refine ⟨by decide, by decide, by decide⟩

/-- C1 witness: applying the manifest characterization to the `en-fr`
scenario window `(0, 2]` shows `metadata.json` is required. -/
theorem compute_required_files_spec_witness :
    "metadata.json" ∈ (compute_required_files
        [⟨"en-fr", 1, "m1", "file", "metadata.json", 0⟩,
          ⟨"en-fr", 1, "m1", "file", "dictionary.db", 0⟩,
          ⟨"en-fr", 2, "m2", "entry", "", 42⟩,
          ⟨"en-fr", 2, "m2", "entry", "", 43⟩,
          ⟨"en-fr", 3, "m3", "file", "dictionary.db", 0⟩] "en-fr" 0 2).files := by
  apply ((compute_required_files_spec
      [⟨"en-fr", 1, "m1", "file", "metadata.json", 0⟩,
        ⟨"en-fr", 1, "m1", "file", "dictionary.db", 0⟩,
        ⟨"en-fr", 2, "m2", "entry", "", 42⟩,
        ⟨"en-fr", 2, "m2", "entry", "", 43⟩,
        ⟨"en-fr", 3, "m3", "file", "dictionary.db", 0⟩] "en-fr" 0 2).2.2.1
    "metadata.json").mpr
  decide


end EasyDict
